import Mathlib

/-!
Verification development for the ConcordeVM core: a shallow embedding of the
VM's linear memory, byte codecs, instruction interpreter, cooperative
scheduler and stream layer, translated from the Rust sources
(src/src/memory.rs, src/src/instructions.rs, src/src/scheduler.rs,
src/src/io.rs), together with theorems settling the specification claims.

Machine bytes are modelled as natural numbers kept below 256 by the codecs;
Rust's usize addresses are Nat; i64 values are Int with explicit
two's-complement encoding mod 2^64.  A Rust index panic (which aborts the
process, leaving no observable state) is modelled as an Option/none or a
dedicated result constructor.
-/

set_option maxHeartbeats 1000000

namespace ConcordeVM


/-- Linear memory, from memory.rs: the field linear_memory of Memory is a
Vec of bytes.  Its capacity coincides with its length for every Memory the
VM builds (Memory::new(size) is vec of size zeros, and extend_memory appends
exactly n zeros), so capacity is modelled as the list length. -/

abbrev Mem := List Nat

/-- Byte of memory m at index i, defaulting to 0; only used at in-range
indices in the theorems below. -/

def byteAt (m : Mem) (i : Nat) : Nat := (m[i]?).getD 0

/-- Model of one Rust store vec with index i set to b, which panics (none)
when i is out of range. -/

def storeByte (m : Mem) (i : Nat) (b : Nat) : Option Mem :=
  if i < m.length then some (m.set i b) else none

/-- Model of the store loop of ByteSerialisable::write_bytes_to in memory.rs
(for each offset, vec at address+offset becomes the next byte), with the
address advanced instead of an offset counter; none models the index panic
(the process aborts, so no partial state is observable). -/

def storeBytes : Mem → Nat → List Nat → Option Mem
  | m, _, [] => some m
  | m, a, b :: bs =>
    match storeByte m a b with
    | some m2 => storeBytes m2 (a + 1) bs
    | none => none

/-- Model of the Rust slice of linear_memory from address to address+n taken
in Memory::read_typed; the slice panics (none) when address+n exceeds the
length. -/

def sliceBytes (m : Mem) (a n : Nat) : Option (List Nat) :=
  if a + n ≤ m.length then some ((m.drop a).take n) else none

/-- Little-endian bytes of a natural number, w bytes wide (the layout of
to_ne_bytes on the little-endian targets the VM runs on). -/

def natToLEBytes : Nat → Nat → List Nat
  | 0, _ => []
  | w + 1, v => v % 256 :: natToLEBytes w (v / 256)

/-- Natural number denoted by a little-endian byte list. -/

def leBytesToNat : List Nat → Nat
  | [] => 0
  | b :: bs => b + 256 * leBytesToNat bs

/-- Two's-complement encoding of an integer into w native-endian bytes,
following to_ne_bytes of the Rust iN types. -/

def encodeInt (w : Nat) (v : Int) : List Nat :=
  natToLEBytes w (v.emod ((2 : Int) ^ (8 * w))).toNat

/-- Decoding of w two's-complement bytes into an integer, following
from_ne_bytes of the Rust iN types. -/

def decodeIntBytes (w : Nat) (bs : List Nat) : Int :=
  if leBytesToNat bs < 2 ^ (8 * w - 1) then (leBytesToNat bs : Int)
  else (leBytesToNat bs : Int) - (2 : Int) ^ (8 * w)

/-- Abbreviation for the i64 codec width used by the arithmetic
instructions. -/

def encodeI64 (v : Int) : List Nat := encodeInt 8 v

/-- Decoding for i64, see decodeIntBytes. -/

def decodeI64 (bs : List Nat) : Int := decodeIntBytes 8 bs

/-! Byte codecs, translated from the ByteSerialisable impls in memory.rs. -/

/-- Model of the bool codec from_bytes in memory.rs: the byte at index 0 is
compared with 1 (bytes with value 0 equal false, and so does every byte other
than 1); none models the index panic on an empty slice. -/

def bool_from_bytes (bs : List Nat) : Option Bool :=
  match bs with
  | [] => none
  | b :: _ => some (b == 1)

/-- Model of the bool codec write_bytes_to in memory.rs: stores 1 for true
and 0 for false at the address. -/

def bool_write_bytes_to (b : Bool) (m : Mem) (address : Nat) : Option Mem :=
  storeByte m address (if b then 1 else 0)

/-- Strings are modelled as their lists of Unicode scalar values.  The String
codec to_bytes and write_bytes_to of memory.rs cast each char to u8, which in
Rust truncates the scalar value to its low byte. -/

def string_to_bytes (s : List Nat) : List Nat := s.map (fun c => c % 256)

/-- Model of the String codec write_bytes_to in memory.rs: stores each char
cast to u8 at address+offset. -/

def string_write_bytes_to (s : List Nat) (m : Mem) (address : Nat) : Option Mem :=
  storeBytes m address (string_to_bytes s)

/-- UTF-8 byte length of one Unicode scalar value; the String codec get_size
in memory.rs returns the byte length of the string. -/

def utf8CharLen (c : Nat) : Nat :=
  if c < 0x80 then 1 else if c < 0x800 then 2 else if c < 0x10000 then 3 else 4

/-- Payload of the String codec get_size in memory.rs. -/

def string_get_size (s : List Nat) : Nat := (s.map utf8CharLen).sum

/-- Strict UTF-8 decoding (the semantics of the Rust String::from_utf8 call
in the String codec from_bytes), fuelled for structural termination; the fuel
is at least the list length at every call site.  Overlong forms, surrogates
and scalar values above 0x10FFFF are rejected, as Rust does. -/

def utf8DecodeAux : Nat → List Nat → Option (List Nat)
  | _, [] => some []
  | 0, _ :: _ => none
  | fuel + 1, b :: rest =>
    if b < 0x80 then
      (utf8DecodeAux fuel rest).map (fun cs => b :: cs)
    else if b < 0xC2 then none
    else if b < 0xE0 then
      match rest with
      | b1 :: rest2 =>
        if 0x80 ≤ b1 ∧ b1 < 0xC0 then
          (utf8DecodeAux fuel rest2).map (fun cs => ((b - 0xC0) * 64 + (b1 - 0x80)) :: cs)
        else none
      | [] => none
    else if b < 0xF0 then
      match rest with
      | b1 :: b2 :: rest3 =>
        if (0x80 ≤ b1 ∧ b1 < 0xC0 ∧ 0x80 ≤ b2 ∧ b2 < 0xC0) ∧
            ¬(b = 0xE0 ∧ b1 < 0xA0) ∧ ¬(b = 0xED ∧ 0xA0 ≤ b1) then
          (utf8DecodeAux fuel rest3).map
            (fun cs => ((b - 0xE0) * 4096 + (b1 - 0x80) * 64 + (b2 - 0x80)) :: cs)
        else none
      | _ => none
    else if b < 0xF5 then
      match rest with
      | b1 :: b2 :: b3 :: rest4 =>
        if (0x80 ≤ b1 ∧ b1 < 0xC0 ∧ 0x80 ≤ b2 ∧ b2 < 0xC0 ∧ 0x80 ≤ b3 ∧ b3 < 0xC0) ∧
            ¬(b = 0xF0 ∧ b1 < 0x90) ∧ ¬(b = 0xF4 ∧ 0x90 ≤ b1) then
          (utf8DecodeAux fuel rest4).map
            (fun cs =>
              ((b - 0xF0) * 262144 + (b1 - 0x80) * 4096 + (b2 - 0x80) * 64 + (b3 - 0x80)) :: cs)
        else none
      | _ => none
    else none

/-- UTF-8 decoding of a byte list, see utf8DecodeAux. -/

def utf8Decode (bs : List Nat) : Option (List Nat) := utf8DecodeAux bs.length bs

/-- Model of the String codec from_bytes in memory.rs: take the bytes up to
the first NUL (or all of them), then decode as UTF-8; none models the panic
on invalid UTF-8. -/

def string_from_bytes (bs : List Nat) : Option (List Nat) :=
  utf8Decode (bs.takeWhile (fun b => b != 0))

/-- Model of the store loop of the Vec u8 codec write_bytes_to in memory.rs:
for each offset below the value's length the byte stored at address+offset is
the value indexed at address+offset (sic; the source indexes the value by
address+offset, not by offset).  Counts down the remaining iterations for
structural termination. -/

def vecWriteLoop (v : List Nat) (address : Nat) : Nat → Nat → Mem → Option Mem
  | 0, _, m => some m
  | k + 1, offset, m =>
    match v[address + offset]? with
    | some b =>
      match storeByte m (address + offset) b with
      | some m2 => vecWriteLoop v address k (offset + 1) m2
      | none => none
    | none => none

/-- Model of the Vec u8 codec write_bytes_to in memory.rs. -/

def vec_write_bytes_to (v : List Nat) (m : Mem) (address : Nat) : Option Mem :=
  vecWriteLoop v address v.length 0 m

/-! Memory operations, translated from impl Memory in memory.rs.  Each
typed operation instantiates Memory::write / Memory::read_typed at the codec
of one type. -/

/-- Memory::write at the i64 codec: unchecked byte stores; none models the
index panic when address+8 exceeds the capacity. -/

def memory_write_i64 (m : Mem) (address : Nat) (v : Int) : Option Mem :=
  storeBytes m address (encodeI64 v)

/-- Memory::read_typed at the i64 codec: slice 8 bytes then decode. -/

def memory_read_i64 (m : Mem) (address : Nat) : Option Int :=
  (sliceBytes m address 8).map decodeI64

/-- Memory::write at the bool codec. -/

def memory_write_bool (m : Mem) (address : Nat) (b : Bool) : Option Mem :=
  bool_write_bytes_to b m address

/-- Memory::read_typed at the bool codec: slice size_of bool = 1 byte. -/

def memory_read_bool (m : Mem) (address : Nat) : Option Bool :=
  (sliceBytes m address 1).bind bool_from_bytes

/-- Memory::write at the String codec. -/

def memory_write_string (m : Mem) (address : Nat) (s : List Nat) : Option Mem :=
  string_write_bytes_to s m address

/-- Memory::read_typed at the String codec.  The slice width is
mem::size_of::(String) = 24 bytes on the 64-bit targets the VM runs on
(pointer, length and capacity words of the struct). -/

def memory_read_string (m : Mem) (address : Nat) : Option (List Nat) :=
  (sliceBytes m address 24).bind string_from_bytes

/-- Model of the copy loop of Memory::memcpy in memory.rs: byte offset by
byte offset, the byte at dest+offset becomes the byte at source+offset of the
current (already partially overwritten) memory. -/

def memcpyLoop (source dest : Nat) : Nat → Nat → Mem → Mem
  | 0, _, m => m
  | k + 1, offset, m =>
    memcpyLoop source dest k (offset + 1) (m.set (dest + offset) (byteAt m (source + offset)))

/-- Model of Memory::memcpy in memory.rs: guarded by
max source dest + n being at most the capacity, then the in-place forward
copy loop. -/

def memory_memcpy (m : Mem) (source dest n : Nat) : Except String Mem :=
  if max source dest + n ≤ m.length then
    Except.ok (memcpyLoop source dest n 0 m)
  else
    Except.error ("Tried memcpy but max memory address exceeded")

/-- Modelled from the spec (comparison semantics for the memcpy claim):
memcpy behaving as if the n source bytes were first copied out to a temporary
buffer and then written at the destination. -/

def memcpyTmp (m : Mem) (source dest n : Nat) : Mem :=
  (List.range m.length).map
    (fun j => if dest ≤ j ∧ j < dest + n then byteAt m (source + (j - dest)) else byteAt m j)

/-- Values of the supported codec types.  Floats are carried by their IEEE
bit patterns: the float codec of memory.rs moves the raw ne_bytes of the
value, so reads and writes act on the bit pattern alone. -/

inductive Value where
  | uint (w : Nat) (v : Nat)
  | sint (w : Nat) (v : Int)
  | float (w : Nat) (bits : Nat)
  | boolean (b : Bool)
  | str (s : List Nat)
  deriving DecidableEq

/-- Type tags for the typed read. -/

inductive ValTy where
  | uintT (w : Nat)
  | sintT (w : Nat)
  | floatT (w : Nat)
  | boolT
  | strT
  deriving DecidableEq

/-- Type tag of a value. -/

def Value.ty : Value → ValTy
  | .uint w _ => .uintT w
  | .sint w _ => .sintT w
  | .float w _ => .floatT w
  | .boolean _ => .boolT
  | .str _ => .strT

/-- Memory::write dispatched over the codec of the value's type. -/

def value_write (m : Mem) (address : Nat) : Value → Option Mem
  | .uint w v => storeBytes m address (natToLEBytes w v)
  | .sint w v => storeBytes m address (encodeInt w v)
  | .float w bits => storeBytes m address (natToLEBytes w bits)
  | .boolean b => memory_write_bool m address b
  | .str s => memory_write_string m address s

/-- Memory::read_typed dispatched over the codec of a type tag. -/

def value_read (m : Mem) (address : Nat) : ValTy → Option Value
  | .uintT w => (sliceBytes m address w).map (fun bs => .uint w (leBytesToNat bs))
  | .sintT w => (sliceBytes m address w).map (fun bs => .sint w (decodeIntBytes w bs))
  | .floatT w => (sliceBytes m address w).map (fun bs => .float w (leBytesToNat bs))
  | .boolT => (sliceBytes m address 1).bind (fun bs => (bool_from_bytes bs).map Value.boolean)
  | .strT => (memory_read_string m address).map Value.str

/-- Hypotheses under which the round trip holds on the code: the value is of
a supported width and in range, the written range lies within capacity, and
for strings the scalars are ASCII and non-NUL, the encoding fits the 24-byte
readable slot, and the rest of the slot holds NUL padding. -/

def roundTripHyp (m : Mem) (a : Nat) : Value → Prop
  | .uint w v => (w = 1 ∨ w = 2 ∨ w = 4 ∨ w = 8 ∨ w = 16) ∧ v < 2 ^ (8 * w) ∧
      a + w ≤ m.length
  | .sint w v => (w = 1 ∨ w = 2 ∨ w = 4 ∨ w = 8 ∨ w = 16) ∧
      -((2 : Int) ^ (8 * w - 1)) ≤ v ∧ v < (2 : Int) ^ (8 * w - 1) ∧ a + w ≤ m.length
  | .float w bits => (w = 4 ∨ w = 8) ∧ bits < 2 ^ (8 * w) ∧ a + w ≤ m.length
  | .boolean _ => a + 1 ≤ m.length
  | .str s => (∀ c ∈ s, 0 < c ∧ c < 0x80) ∧ s.length ≤ 24 ∧ a + 24 ≤ m.length ∧
      (∀ j, j < 24 → s.length ≤ j → byteAt m (a + j) = 0)

/-! Instruction set and interpreter, translated from instructions.rs.  The
Instruction enum itself lives in the external concordeisa crate; its variants
are the ones matched in instructions.rs, plus MemExtend (used by tests.rs),
which reaches the unimplemented catch-all arm of the dispatch. -/

/-- Instructions of the ConcordeISA, as dispatched in instructions.rs.
Address parameters are byte offsets; immediate payloads ride inside the
instruction.  String literals are lists of Unicode scalar values. -/

inductive Instr where
  | writeStringToSymbol (symbol : Nat) (value : List Nat)
  | writeIntToSymbol (symbol : Nat) (value : Int)
  | writeBoolToSymbol (symbol : Nat) (value : Bool)
  | writeBytesToSymbol (symbol : Nat) (value : List Nat)
  | memCpy (source dest n : Nat)
  | addSymbols (a b dest : Nat)
  | subtractSymbols (a b dest : Nat)
  | multiplySymbols (a b dest : Nat)
  | divideSymbols (a b dest : Nat)
  | moduloSymbols (a b dest : Nat)
  | minSymbols (a b dest : Nat)
  | maxSymbols (a b dest : Nat)
  | fmaSymbols (a b c dest : Nat)
  | sinSymbol (a dest : Nat)
  | cosSymbol (a dest : Nat)
  | tanSymbol (a dest : Nat)
  | arcsinSymbol (a dest : Nat)
  | arccosSymbol (a dest : Nat)
  | arctanSymbol (a dest : Nat)
  | compareEqual (a b dest : Nat)
  | compareGreater (a b dest : Nat)
  | compareLesser (a b dest : Nat)
  | jump (target : Nat)
  | jumpIfTrue (target condition : Nat)
  | await (futId returnWriteAddr : Nat)
  | createCoroutine (dest argAddr nArgBytes writeCoroIdAddr : Nat)
  | ret (address n : Nat)
  | deleteFuture (futureId : Nat)
  | noOp
  | memExtend (n : Nat)
  deriving DecidableEq

/-- Interrupts surfaced by one interpreter step, from instructions.rs. -/

inductive Interrupt where
  | await (futId returnWriteAddr : Nat)
  | createCoroutine (dest argAddr nArgBytes writeCoroIdAddr : Nat)
  | deleteFuture (futureId : Nat)
  | ret (retAddr nRetBytes : Nat)
  | ok
  | eof
  deriving DecidableEq

/-- Modelled from the spec: the cpu.rs in the snapshot is an earlier
symbol-table iteration and does not define the Program consumed by
instructions.rs and scheduler.rs.  Its struct shape (shared instruction
vector plus pc) is declared in tests.rs, and the spec fixes the methods:
increment adds one to the pc, jump sets the pc to the target, forking shares
the instructions and sets a new pc. -/

structure Program where
  instructions : List Instr
  pc : Nat
  deriving DecidableEq

/-- Program counter advance by one (spec: PC is incremented by 1). -/

def Program.increment (p : Program) : Program := { p with pc := p.pc + 1 }

/-- Jump: the pc becomes the target (spec: for Jump(t), PC becomes t). -/

def Program.jump (p : Program) (target : Nat) : Program := { p with pc := target }

/-- Fork: shared instructions, new pc (spec and scheduler.rs fork_to_pc). -/

def Program.fork_to_pc (p : Program) (dest : Nat) : Program := { p with pc := dest }

/-- Instruction fetch at the pc; none when the pc is past the end. -/

def Program.get_instruction (p : Program) : Option Instr := p.instructions[p.pc]?

/-- Outcome of one memory-only instruction helper of instructions.rs: Ok and
Err both carry the memory the Rust code mutated in place; a Rust panic
aborts the process and carries no state. -/

inductive MemRes where
  | ok (m : Mem) (i : Interrupt)
  | err (msg : String) (m : Mem)
  | panicked (msg : String)
  deriving DecidableEq

/-- Uninterpreted bit-level f64 operations standing for the trig calls of
instructions.rs: floating point itself is not modelled, and the theorems
below hold for every interpretation of these bit-pattern functions. -/

structure FloatOps where
  sinB : Nat → Nat
  cosB : Nat → Nat
  tanB : Nat → Nat
  asinB : Nat → Nat
  acosB : Nat → Nat
  atanB : Nat → Nat

/-- Helper shared by the binary i64 arithmetic functions of instructions.rs:
read both operands, combine, write at dest.  Re-encoding the mathematical
result mod 2 to the 64 realises the two's-complement wrapping of the Rust
release builds the spec fixes (add/sub/mul wrap on overflow). -/

def binary_i64_op (m : Mem) (a b dest : Nat) (f : Int → Int → Int) : MemRes :=
  match memory_read_i64 m a, memory_read_i64 m b with
  | some ad, some bd =>
    match memory_write_i64 m dest (f ad bd) with
    | some m2 => MemRes.ok m2 Interrupt.ok
    | none => MemRes.panicked ("index out of bounds")
  | _, _ => MemRes.panicked ("slice index out of range")

/-- Helper shared by the i64 comparison functions of instructions.rs: read
both operands, compare, write one boolean byte at dest. -/

def compare_i64_op (m : Mem) (a b dest : Nat) (f : Int → Int → Bool) : MemRes :=
  match memory_read_i64 m a, memory_read_i64 m b with
  | some ad, some bd =>
    match memory_write_bool m dest (f ad bd) with
    | some m2 => MemRes.ok m2 Interrupt.ok
    | none => MemRes.panicked ("index out of bounds")
  | _, _ => MemRes.panicked ("slice index out of range")

/-- Helper shared by the unary f64 trig functions of instructions.rs: read
the 8-byte bit pattern, apply the operation, write the resulting pattern. -/

def unary_f64_op (m : Mem) (a dest : Nat) (f : Nat → Nat) : MemRes :=
  match (sliceBytes m a 8).map leBytesToNat with
  | some bits =>
    match storeBytes m dest (natToLEBytes 8 (f bits)) with
    | some m2 => MemRes.ok m2 Interrupt.ok
    | none => MemRes.panicked ("index out of bounds")
  | none => MemRes.panicked ("slice index out of range")

/-- divide_symbols of instructions.rs: divisor zero yields the Err string
before any write.  Rust i64 division truncates toward zero (Int.tdiv), and
it panics when (and only when) the quotient overflows i64, that is at
dividend -2^63 with divisor -1. -/

def divide_symbols (m : Mem) (a b dest : Nat) : MemRes :=
  match memory_read_i64 m a, memory_read_i64 m b with
  | some ad, some bd =>
    if bd = 0 then MemRes.err ("Division by zero error") m
    else if ad = -((2 : Int) ^ 63) ∧ bd = -1 then
      MemRes.panicked ("attempt to divide with overflow")
    else
      match memory_write_i64 m dest (Int.tdiv ad bd) with
      | some m2 => MemRes.ok m2 Interrupt.ok
      | none => MemRes.panicked ("index out of bounds")
  | _, _ => MemRes.panicked ("slice index out of range")

/-- modulo_symbols of instructions.rs.  Rust i64 remainder carries the sign
of the dividend (Int.tmod) and likewise panics at dividend -2^63 with
divisor -1. -/

def modulo_symbols (m : Mem) (a b dest : Nat) : MemRes :=
  match memory_read_i64 m a, memory_read_i64 m b with
  | some ad, some bd =>
    if bd = 0 then MemRes.err ("Division by zero error") m
    else if ad = -((2 : Int) ^ 63) ∧ bd = -1 then
      MemRes.panicked ("attempt to calculate the remainder with overflow")
    else
      match memory_write_i64 m dest (Int.tmod ad bd) with
      | some m2 => MemRes.ok m2 Interrupt.ok
      | none => MemRes.panicked ("index out of bounds")
  | _, _ => MemRes.panicked ("slice index out of range")

/-- copy_symbol of instructions.rs, delegating to Memory::memcpy. -/

def copy_symbol (m : Mem) (source dest n : Nat) : MemRes :=
  match memory_memcpy m source dest n with
  | Except.ok m2 => MemRes.ok m2 Interrupt.ok
  | Except.error e => MemRes.err e m

/-- Outcome of one full interpreter step. -/

inductive StepOut where
  | done (res : Except String Interrupt) (m : Mem) (p : Program)
  | panicked (msg : String)

/-- Lift a memory-only helper outcome into a step outcome at the given
program state. -/

def liftMem (p : Program) : MemRes → StepOut
  | MemRes.ok m2 i => StepOut.done (Except.ok i) m2 p
  | MemRes.err msg m2 => StepOut.done (Except.error msg) m2 p
  | MemRes.panicked msg => StepOut.panicked msg

/-- execute_instruction of instructions.rs: fetch the instruction at the pc,
dispatch on its variant, then increment the pc unless the instruction was
Jump or JumpIfTrue (the bottom match of the source; note that Await,
CreateCoroutine and Return do get the increment). -/

def execute_instruction (F : FloatOps) (m : Mem) (p : Program) : StepOut :=
  match p.get_instruction with
  | none => StepOut.panicked ("index out of bounds")
  | some instruction =>
    let afterOp : StepOut :=
      match instruction with
      | .writeStringToSymbol symbol value =>
        liftMem p (match memory_write_string m symbol value with
          | some m2 => MemRes.ok m2 Interrupt.ok
          | none => MemRes.panicked ("index out of bounds"))
      | .writeIntToSymbol symbol value =>
        liftMem p (match memory_write_i64 m symbol value with
          | some m2 => MemRes.ok m2 Interrupt.ok
          | none => MemRes.panicked ("index out of bounds"))
      | .writeBoolToSymbol symbol value =>
        liftMem p (match memory_write_bool m symbol value with
          | some m2 => MemRes.ok m2 Interrupt.ok
          | none => MemRes.panicked ("index out of bounds"))
      | .writeBytesToSymbol symbol value =>
        liftMem p (match vec_write_bytes_to value m symbol with
          | some m2 => MemRes.ok m2 Interrupt.ok
          | none => MemRes.panicked ("index out of bounds"))
      | .memCpy source dest n => liftMem p (copy_symbol m source dest n)
      | .addSymbols a b dest => liftMem p (binary_i64_op m a b dest (fun x y => x + y))
      | .subtractSymbols a b dest => liftMem p (binary_i64_op m a b dest (fun x y => x - y))
      | .multiplySymbols a b dest => liftMem p (binary_i64_op m a b dest (fun x y => x * y))
      | .divideSymbols a b dest => liftMem p (divide_symbols m a b dest)
      | .moduloSymbols a b dest => liftMem p (modulo_symbols m a b dest)
      | .minSymbols a b dest => liftMem p (binary_i64_op m a b dest min)
      | .maxSymbols a b dest => liftMem p (binary_i64_op m a b dest max)
      | .fmaSymbols a b c dest =>
        liftMem p (match memory_read_i64 m a, memory_read_i64 m b, memory_read_i64 m c with
          | some ad, some bd, some cd =>
            match memory_write_i64 m dest (ad * bd + cd) with
            | some m2 => MemRes.ok m2 Interrupt.ok
            | none => MemRes.panicked ("index out of bounds")
          | _, _, _ => MemRes.panicked ("slice index out of range"))
      | .sinSymbol a dest => liftMem p (unary_f64_op m a dest F.sinB)
      | .cosSymbol a dest => liftMem p (unary_f64_op m a dest F.cosB)
      | .tanSymbol a dest => liftMem p (unary_f64_op m a dest F.tanB)
      | .arcsinSymbol a dest => liftMem p (unary_f64_op m a dest F.asinB)
      | .arccosSymbol a dest => liftMem p (unary_f64_op m a dest F.acosB)
      | .arctanSymbol a dest => liftMem p (unary_f64_op m a dest F.atanB)
      | .compareEqual a b dest =>
        liftMem p (compare_i64_op m a b dest (fun x y => decide (x = y)))
      | .compareGreater a b dest =>
        liftMem p (compare_i64_op m a b dest (fun x y => decide (y < x)))
      | .compareLesser a b dest =>
        liftMem p (compare_i64_op m a b dest (fun x y => decide (x < y)))
      | .jump target => StepOut.done (Except.ok Interrupt.ok) m (Program.jump p target)
      | .jumpIfTrue target condition =>
        match memory_read_bool m condition with
        | some c =>
          if c then StepOut.done (Except.ok Interrupt.ok) m (Program.jump p target)
          else StepOut.done (Except.ok Interrupt.ok) m p.increment
        | none => StepOut.panicked ("slice index out of range")
      | .await futId returnWriteAddr =>
        StepOut.done (Except.ok (Interrupt.await futId returnWriteAddr)) m p
      | .createCoroutine dest argAddr nArgBytes writeCoroIdAddr =>
        StepOut.done (Except.ok (Interrupt.createCoroutine dest argAddr nArgBytes writeCoroIdAddr)) m p
      | .ret address n => StepOut.done (Except.ok (Interrupt.ret address n)) m p
      | .deleteFuture futureId =>
        StepOut.done (Except.ok (Interrupt.deleteFuture futureId)) m p
      | .noOp => StepOut.done (Except.ok Interrupt.ok) m p
      | .memExtend _ => StepOut.done (Except.error ("Unimplemented operation!")) m p
    match afterOp with
    | StepOut.panicked msg => StepOut.panicked msg
    | StepOut.done res m2 p2 =>
      match instruction with
      | .jump _ => StepOut.done res m2 p2
      | .jumpIfTrue _ _ => StepOut.done res m2 p2
      | _ => StepOut.done res m2 p2.increment

/-- Program counter advance the scheduler performs after handling an Await
or CreateCoroutine interrupt (scheduler.rs, the cpu.program.pc += 1
statements of the dispatch loop). -/

def scheduler_pc_bump (p : Program) : Program := { p with pc := p.pc + 1 }

/-! Scheduler model, translated from scheduler.rs.  HashMaps are modelled as
association lists with unique keys (lookup by List.lookup); the HashSet of
dependants is a list in insertion order, which also fixes one iteration
order for the wake-up loop (the ordering facts proved below are per
dependant and do not depend on the cross-dependant order). -/

/-- FutureState of scheduler.rs. -/

inductive FutureState where
  | cancelled
  | waiting
  | complete
  deriving DecidableEq

/-- CoroutineState of scheduler.rs. -/

inductive CoroutineState where
  | runnable
  | suspended
  | running
  | finished
  | cancelled
  deriving DecidableEq

/-- Future of scheduler.rs. -/

structure FutureR where
  id : Nat
  state : FutureState
  dependants : List Nat
  value : Option (List Nat)
  deriving DecidableEq

/-- Coroutine of scheduler.rs; the embedded CPU is carried as its memory and
program (CPU::with_program(0, program) starts with a size-0 memory). -/

structure CoroutineR where
  id : Nat
  priority : Int
  state : CoroutineState
  depends_on : List (Nat × Nat)
  dependant : Option Nat
  memory : Mem
  program : Program
  deriving DecidableEq

/-- Scheduler state of scheduler.rs (the running flag only matters to the
blocking policy of the dispatch loop and is omitted). -/

structure Scheduler where
  coroutines : List (Nat × CoroutineR)
  futures : List (Nat × FutureR)
  ready_queue : List Nat
  new_spawned_coro_id : Nat
  new_spawned_future_id : Nat
  deriving DecidableEq

/-- Scheduler::new. -/

def Scheduler.new : Scheduler :=
  { coroutines := [], futures := [], ready_queue := [],
    new_spawned_coro_id := 0, new_spawned_future_id := 0 }

/-- Replacement of the binding of one key in an association list (the effect
of overwriting through HashMap::get_mut). -/

def updateAssoc {α : Type} (l : List (Nat × α)) (k : Nat) (v : α) : List (Nat × α) :=
  l.map (fun kv => if kv.1 = k then (k, v) else kv)

/-- Coroutine::new of scheduler.rs. -/

def coroutine_new (id : Nat) (priority : Int) (program : Program) : CoroutineR :=
  { id := id, priority := priority, state := CoroutineState.runnable,
    depends_on := [], dependant := none, memory := [], program := program }

/-- Argument memory of a fresh coroutine: extend the empty memory to the
size of the args blob (extend_memory_to, modelled from the spec: extend the
memory with zero bytes up to the given size), then Memory::write the args at
address 0 through the Vec u8 codec.  At address 0 with an exactly fitting
memory that write is in bounds, so the default branch is dead. -/

def newCoroMemory (args : List Nat) : Mem :=
  (vec_write_bytes_to args (List.replicate args.length 0) 0).getD []

/-- Scheduler::spawn_fut: allocate the next future id, create the future in
state Waiting with value None, and with the dependants set holding the dep
argument if there is one (for spawn_coro this is the id of the freshly
spawned coroutine itself). -/

def spawn_fut (s : Scheduler) (dep : Option Nat) : Nat × Scheduler :=
  let fut_id := s.new_spawned_future_id + 1
  let dependants : List Nat := match dep with
    | some dep_id => [dep_id]
    | none => []
  let fut : FutureR :=
    { id := fut_id, state := FutureState.waiting, dependants := dependants, value := none }
  (fut_id, { s with new_spawned_future_id := fut_id,
                    futures := (fut_id, fut) :: s.futures })

/-- Scheduler::spawn_coro: allocate the next coroutine id, spawn the result
future with that id as dep, create the coroutine (recording the future as
its dependant and writing the args at address 0 of its fresh memory), insert
it, push it on the ready queue and return the future id. -/

def spawn_coro (s : Scheduler) (program : Program) (priority : Int) (args : List Nat) :
    Nat × Scheduler :=
  let id := s.new_spawned_coro_id + 1
  let s1 := { s with new_spawned_coro_id := id }
  let (fut_id, s2) := spawn_fut s1 (some id)
  let coroutine := { coroutine_new id priority program with
    dependant := some fut_id, memory := newCoroMemory args }
  (fut_id, { s2 with coroutines := (id, coroutine) :: s2.coroutines,
                     ready_queue := s2.ready_queue ++ [id] })

/-- Observable events of the scheduler in execution order, recorded to state
the ordering claims. -/

inductive SchedEv where
  | setValue (fut : Nat) (bytes : List Nat)
  | setComplete (fut : Nat)
  | setRunnable (coro : Nat)
  | enqueue (coro : Nat)
  | memWrite (coro : Nat) (addr : Nat) (bytes : List Nat)
  | removeDep (coro fut : Nat)
  | clearDependants (fut : Nat)
  deriving DecidableEq

/-- Outcome of a scheduler operation, carrying the state and the event
trace; a Rust panic aborts the process. -/

inductive SchedOut where
  | ok (s : Scheduler) (tr : List SchedEv)
  | err (msg : String) (s : Scheduler)
  | panicked (msg : String)

/-- Wake-up loop of Scheduler::complete_future, one dependant id at a time
in iteration order.  For each dependant that exists in the coroutine table
the source sets its state to Runnable, pushes its id on the ready queue,
then (if the future is in its depends_on map) writes the value bytes into
its memory at the recorded address through Memory::write with the Vec u8
codec, then removes the depends_on entry. -/

def wakeLoop (future_id : Nat) (bytes : List Nat) :
    List Nat → Scheduler → List SchedEv → SchedOut
  | [], s, tr => SchedOut.ok s tr
  | cid :: rest, s, tr =>
    match s.coroutines.lookup cid with
    | none => wakeLoop future_id bytes rest s tr
    | some coro =>
      let coro1 := { coro with state := CoroutineState.runnable }
      let s1 := { s with coroutines := updateAssoc s.coroutines cid coro1,
                         ready_queue := s.ready_queue ++ [cid] }
      let tr1 := tr ++ [SchedEv.setRunnable cid, SchedEv.enqueue cid]
      match coro1.depends_on.lookup future_id with
      | some write_location =>
        match vec_write_bytes_to bytes coro1.memory write_location with
        | some mem2 =>
          let coro2 := { coro1 with
            memory := mem2,
            depends_on := coro1.depends_on.filter (fun kv => kv.1 ≠ future_id) }
          wakeLoop future_id bytes rest
            { s1 with coroutines := updateAssoc s1.coroutines cid coro2 }
            (tr1 ++ [SchedEv.memWrite cid write_location bytes,
                     SchedEv.removeDep cid future_id])
        | none => SchedOut.panicked ("index out of bounds")
      | none =>
        let coro2 := { coro1 with
          depends_on := coro1.depends_on.filter (fun kv => kv.1 ≠ future_id) }
        wakeLoop future_id bytes rest
          { s1 with coroutines := updateAssoc s1.coroutines cid coro2 }
          (tr1 ++ [SchedEv.removeDep cid future_id])

/-- Scheduler::complete_future: look the future up (Err when absent), check
it is Waiting (the source panics otherwise), store the value, mark the
future Complete, then run the wake-up loop over the snapshot of its
dependants, and finally clear the dependants set. -/

def complete_future (s : Scheduler) (future_id : Nat)
    (value : Except String (List Nat)) : SchedOut :=
  match s.futures.lookup future_id with
  | none => SchedOut.err ("Future at symbol not found") s
  | some fut =>
    if fut.state = FutureState.waiting then
      match value with
      | Except.error e => SchedOut.err e s
      | Except.ok bytes =>
        let fut2 := { fut with value := some bytes, state := FutureState.complete }
        let s1 := { s with futures := updateAssoc s.futures future_id fut2 }
        match wakeLoop future_id bytes fut.dependants s1
            [SchedEv.setValue future_id bytes, SchedEv.setComplete future_id] with
        | SchedOut.ok s2 tr =>
          let fut3 := { fut2 with dependants := [] }
          SchedOut.ok { s2 with futures := updateAssoc s2.futures future_id fut3 }
            (tr ++ [SchedEv.clearDependants future_id])
        | out => out
    else SchedOut.panicked ("Tried to set value for future which has state")

/-- Scheduler::get_next_runnable of scheduler.rs: pop ids off the front of
the ready queue; an id whose coroutine is absent from the table or not
Runnable is dropped silently; the first Runnable one is returned together
with the remaining queue; none once the queue runs dry. -/

def get_next_runnable (coros : List (Nat × CoroutineR)) :
    List Nat → Option Nat × List Nat
  | [] => (none, [])
  | id :: rest =>
    match coros.lookup id with
    | some coroutine =>
      if coroutine.state = CoroutineState.runnable then (some id, rest)
      else get_next_runnable coros rest
    | none => get_next_runnable coros rest

/-! Stream model, translated from io.rs.  The buffered reader and writer
are process-external byte streams; what the claims concern is the
has_written flag and the close-time rename decision, which are pure
functions of the stream record. -/

/-- ConcordeStream of io.rs, reduced to its name and write flag (the reader
and writer are external byte streams). -/

structure ConcordeStream where
  name : String
  has_written : Bool
  deriving DecidableEq

/-- ConcordeStream::open: both the stdio and the file branch start with
has_written false. -/

def stream_open (name : String) : ConcordeStream :=
  { name := name, has_written := false }

/-- Filesystem effect of ConcordeStream::close. -/

inductive CloseEffect where
  | renameOver (tmp orig : String)
  | nothingDone
  deriving DecidableEq

/-- ConcordeStream::write: the bytes go to the buffered writer and the flag
is set on success. -/

def stream_write (st : ConcordeStream) : ConcordeStream :=
  { st with has_written := true }

/-- ConcordeStream::close of io.rs: for every name other than stdio it calls
rename of name.tmp over name, without consulting has_written. -/

def stream_close (st : ConcordeStream) : CloseEffect :=
  if st.name ≠ "stdio" then CloseEffect.renameOver (st.name ++ ".tmp") st.name
  else CloseEffect.nothingDone

/-! Claim theorems. -/

/-! Theorems. -/

theorem length_natToLEBytes (w v : Nat) : (natToLEBytes w v).length = w := by
  induction w generalizing v with
  | zero => rfl
  | succ w ih => simp [natToLEBytes, ih]

theorem leBytesToNat_natToLEBytes {w v : Nat} (h : v < 2 ^ (8 * w)) :
    leBytesToNat (natToLEBytes w v) = v := by
  induction w generalizing v with
  | zero =>
    simp [natToLEBytes, leBytesToNat]
    omega
  | succ w ih =>
    have hd : v / 256 < 2 ^ (8 * w) := by
      have h256 : (256 : Nat) = 2 ^ 8 := by norm_num
      rw [h256, Nat.div_lt_iff_lt_mul (by positivity), ← pow_add]
      have : 8 * w + 8 = 8 * (w + 1) := by ring
      rw [this]
      exact h
    simp [natToLEBytes, leBytesToNat, ih hd]
    omega

theorem natToLEBytes_lt (w v : Nat) : ∀ b ∈ natToLEBytes w v, b < 256 := by
  induction w generalizing v with
  | zero => simp [natToLEBytes]
  | succ w ih =>
    intro b hb
    simp only [natToLEBytes, List.mem_cons] at hb
    rcases hb with h | h
    · omega
    · exact ih _ _ h

theorem decodeIntBytes_encodeInt {w : Nat} {v : Int} (hw : 0 < w)
    (hlo : -((2 : Int) ^ (8 * w - 1)) ≤ v) (hhi : v < (2 : Int) ^ (8 * w - 1)) :
    decodeIntBytes w (encodeInt w v) = v := by
  have hsplit : 8 * w - 1 + 1 = 8 * w := by omega
  have hK : ((2 : Int) ^ (8 * w)) = 2 ^ (8 * w - 1) * 2 := by
    rw [← pow_succ, hsplit]
  have hKpos : (0 : Int) < (2 : Int) ^ (8 * w) := by positivity
  have hmod : v.emod ((2 : Int) ^ (8 * w)) = if 0 ≤ v then v else v + 2 ^ (8 * w) := by
    split
    · apply Int.emod_eq_of_lt ‹0 ≤ v›
      calc v < 2 ^ (8 * w - 1) := hhi
        _ ≤ 2 ^ (8 * w) := by
          apply pow_le_pow_right₀ (by norm_num)
          omega
    · have hv : ¬ 0 ≤ v := ‹_›
      have : (v + 2 ^ (8 * w)).emod (2 ^ (8 * w)) = v.emod (2 ^ (8 * w)) := by
        conv_lhs => rw [show v + 2 ^ (8 * w) = v + 1 * 2 ^ (8 * w) by ring]
        exact Int.add_mul_emod_self
      rw [← this]
      apply Int.emod_eq_of_lt
      · omega
      · omega
  unfold decodeIntBytes encodeInt
  rw [hmod]
  split
  · have h0 : (0 : Int) ≤ v := ‹_›
    have hvn : (v.toNat : Int) = v := Int.toNat_of_nonneg h0
    have hlt : v.toNat < 2 ^ (8 * w) := by
      have : (v.toNat : Int) < 2 ^ (8 * w) := by
        rw [hvn]; omega
      exact_mod_cast this
    rw [leBytesToNat_natToLEBytes hlt]
    have hlt2 : v.toNat < 2 ^ (8 * w - 1) := by
      have : (v.toNat : Int) < 2 ^ (8 * w - 1) := by rw [hvn]; exact hhi
      exact_mod_cast this
    rw [if_pos hlt2, hvn]
  · have h0 : ¬ (0 : Int) ≤ v := ‹_›
    have hge : (0 : Int) ≤ v + 2 ^ (8 * w) := by omega
    have hvn : ((v + 2 ^ (8 * w)).toNat : Int) = v + 2 ^ (8 * w) :=
      Int.toNat_of_nonneg hge
    have hlt : (v + 2 ^ (8 * w)).toNat < 2 ^ (8 * w) := by
      have : ((v + 2 ^ (8 * w)).toNat : Int) < 2 ^ (8 * w) := by rw [hvn]; omega
      exact_mod_cast this
    rw [leBytesToNat_natToLEBytes hlt]
    have hnotlt : ¬ (v + 2 ^ (8 * w)).toNat < 2 ^ (8 * w - 1) := by
      intro hcon
      have : ((v + 2 ^ (8 * w)).toNat : Int) < 2 ^ (8 * w - 1) := by
        exact_mod_cast hcon
      rw [hvn] at this
      omega
    rw [if_neg hnotlt, hvn]
    ring

theorem byteAt_cons_zero (b : Nat) (bs : List Nat) : byteAt (b :: bs) 0 = b := by
  simp [byteAt]

theorem byteAt_cons_succ (b : Nat) (bs : List Nat) (i : Nat) :
    byteAt (b :: bs) (i + 1) = byteAt bs i := by
  simp [byteAt]

theorem byteAt_set_self {m : Mem} {i : Nat} (h : i < m.length) (b : Nat) :
    byteAt (m.set i b) i = b := by
  unfold byteAt
  rw [List.getElem?_set_eq_of_lt b h]
  rfl

theorem byteAt_set_ne {m : Mem} {i j : Nat} (h : j ≠ i) (b : Nat) :
    byteAt (m.set i b) j = byteAt m j := by
  unfold byteAt
  rw [List.getElem?_set_ne (fun he => h he.symm)]

theorem byteAt_eq_getElem {m : Mem} {i : Nat} (h : i < m.length) :
    byteAt m i = m[i] := by
  unfold byteAt
  rw [List.getElem?_eq_getElem h]
  rfl

theorem storeBytes_spec :
    ∀ (bs : List Nat) (m m2 : Mem) (a : Nat), storeBytes m a bs = some m2 →
      m2.length = m.length ∧
      (∀ j, j < a ∨ a + bs.length ≤ j → byteAt m2 j = byteAt m j) ∧
      (∀ i, i < bs.length → byteAt m2 (a + i) = byteAt bs i) := by
  intro bs
  induction bs with
  | nil =>
    intro m m2 a h
    simp [storeBytes] at h
    subst h
    exact ⟨rfl, fun j _ => rfl, fun i hi => absurd hi (by simp)⟩
  | cons b bs ih =>
    intro m m2 a h
    simp only [storeBytes, storeByte] at h
    by_cases ha : a < m.length
    · rw [if_pos ha] at h
      obtain ⟨hlen, hout, hin⟩ := ih (m.set a b) m2 (a + 1) h
      refine ⟨by simpa using hlen, ?_, ?_⟩
      · intro j hj
        have hj2 : j < a + 1 ∨ a + 1 + bs.length ≤ j := by
          rcases hj with hj | hj
          · exact Or.inl (by omega)
          · right
            simp only [List.length_cons] at hj
            omega
        by_cases hja : j = a
        · subst hja
          rcases hj with hj | hj
          · omega
          · simp only [List.length_cons] at hj
            omega
        · rw [hout j hj2, byteAt_set_ne hja]
      · intro i hi
        match i with
        | 0 =>
          have heq : byteAt m2 a = byteAt (m.set a b) a := by
            have := hout a (Or.inl (by omega))
            simpa using this
          rw [Nat.add_zero, heq, byteAt_set_self ha, byteAt_cons_zero]
        | i + 1 =>
          have := hin i (by simpa using hi)
          have harr : a + (i + 1) = a + 1 + i := by omega
          rw [harr, this, byteAt_cons_succ]
    · rw [if_neg ha] at h
      exact absurd h (by simp)

theorem storeBytes_some_of_fits :
    ∀ (bs : List Nat) (m : Mem) (a : Nat), a + bs.length ≤ m.length →
      ∃ m2, storeBytes m a bs = some m2 := by
  intro bs
  induction bs with
  | nil => intro m a _; exact ⟨m, rfl⟩
  | cons b bs ih =>
    intro m a hfit
    simp only [List.length_cons] at hfit
    have ha : a < m.length := by omega
    obtain ⟨m2, hm2⟩ := ih (m.set a b) (a + 1) (by simpa using (by omega : a + 1 + bs.length ≤ m.length))
    exact ⟨m2, by simp only [storeBytes, storeByte, if_pos ha]; exact hm2⟩

theorem storeBytes_none_of_overflow :
    ∀ (bs : List Nat) (m : Mem) (a : Nat), bs ≠ [] → m.length < a + bs.length →
      storeBytes m a bs = none := by
  intro bs
  induction bs with
  | nil => intro m a h _; exact absurd rfl h
  | cons b bs ih =>
    intro m a _ hlen
    simp only [List.length_cons] at hlen
    by_cases ha : a < m.length
    · have hbs : bs ≠ [] := by
        intro hnil
        subst hnil
        simp at hlen
        omega
      simp only [storeBytes, storeByte, if_pos ha]
      exact ih (m.set a b) (a + 1) hbs (by simpa using (by omega : m.length < a + 1 + bs.length))
    · simp only [storeBytes, storeByte, if_neg ha]

/-- Reading back a slice whose bytes are known pointwise. -/
theorem sliceBytes_eq_of (m : Mem) (a : Nat) (bs : List Nat)
    (hfit : a + bs.length ≤ m.length)
    (h : ∀ i, i < bs.length → byteAt m (a + i) = byteAt bs i) :
    sliceBytes m a bs.length = some bs := by
  unfold sliceBytes
  rw [if_pos hfit]
  congr 1
  apply List.ext_getElem
  · simp
    omega
  · intro i h1 h2
    have hia : a + i < m.length := by
      simp at h1
      omega
    have hi : i < bs.length := h2
    rw [List.getElem_take, List.getElem_drop]
    have e1 : m[a + i] = byteAt m (a + i) := (byteAt_eq_getElem hia).symm
    have e2 : bs[i] = byteAt bs i := (byteAt_eq_getElem hi).symm
    rw [e1, e2]
    exact h i hi

/-- Writing bytes then slicing the same range yields the bytes back. -/
theorem sliceBytes_storeBytes {m m2 : Mem} {a : Nat} {bs : List Nat}
    (h : storeBytes m a bs = some m2) (hfit : a + bs.length ≤ m.length) :
    sliceBytes m2 a bs.length = some bs := by
  obtain ⟨hlen, _, hin⟩ := storeBytes_spec bs m m2 a h
  exact sliceBytes_eq_of m2 a bs (by omega) hin

theorem mem_eq_of_byteAt {m1 m2 : Mem} (hlen : m1.length = m2.length)
    (h : ∀ j, j < m1.length → byteAt m1 j = byteAt m2 j) : m1 = m2 := by
  apply List.ext_getElem hlen
  intro i h1 h2
  rw [← byteAt_eq_getElem h1, ← byteAt_eq_getElem h2]
  exact h i h1

theorem memcpyLoop_length (s d : Nat) :
    ∀ (k off : Nat) (m : Mem), (memcpyLoop s d k off m).length = m.length := by
  intro k
  induction k with
  | zero => intro off m; rfl
  | succ k ih =>
    intro off m
    simp only [memcpyLoop]
    rw [ih]
    simp

theorem byteAt_memcpyLoop_out (s d : Nat) :
    ∀ (k off : Nat) (m : Mem) (j : Nat), j < d + off ∨ d + off + k ≤ j →
      byteAt (memcpyLoop s d k off m) j = byteAt m j := by
  intro k
  induction k with
  | zero => intro off m j _; rfl
  | succ k ih =>
    intro off m j hj
    simp only [memcpyLoop]
    have hj2 : j < d + (off + 1) ∨ d + (off + 1) + k ≤ j := by omega
    rw [ih (off + 1) _ j hj2]
    exact byteAt_set_ne (by omega) _

theorem byteAt_memcpyLoop_in (s d n : Nat) (hside : d ≤ s ∨ s + n ≤ d) :
    ∀ (k off : Nat) (m : Mem), off + k ≤ n → d + n ≤ m.length →
      ∀ i, i < k →
        byteAt (memcpyLoop s d k off m) (d + off + i) = byteAt m (s + off + i) := by
  intro k
  induction k with
  | zero => intro off m _ _ i hi; omega
  | succ k ih =>
    intro off m hoffk hfit i hi
    simp only [memcpyLoop]
    match i with
    | 0 =>
      have hout : byteAt (memcpyLoop s d k (off + 1) (m.set (d + off) (byteAt m (s + off))))
          (d + off) = byteAt (m.set (d + off) (byteAt m (s + off))) (d + off) :=
        byteAt_memcpyLoop_out s d k (off + 1) _ (d + off) (by omega)
      simp only [Nat.add_zero]
      rw [hout, byteAt_set_self (by omega) _]
    | i + 1 =>
      have harr : d + off + (i + 1) = d + (off + 1) + i := by omega
      have hlen2 : d + n ≤ (m.set (d + off) (byteAt m (s + off))).length := by
        simpa using hfit
      rw [harr, ih (off + 1) _ (by omega) hlen2 i (by omega)]
      have hne : s + (off + 1) + i ≠ d + off := by
        rcases hside with hcase | hcase
        · omega
        · omega
      rw [byteAt_set_ne hne]
      congr 1
      omega

theorem length_memcpyTmp (m : Mem) (s d n : Nat) :
    (memcpyTmp m s d n).length = m.length := by
  simp [memcpyTmp]

theorem byteAt_memcpyTmp (m : Mem) (s d n : Nat) {j : Nat} (hj : j < m.length) :
    byteAt (memcpyTmp m s d n) j =
      if d ≤ j ∧ j < d + n then byteAt m (s + (j - d)) else byteAt m j := by
  unfold memcpyTmp byteAt
  rw [List.getElem?_map, List.getElem?_range hj]
  rfl

/-- With non-interfering ranges (destination at or below the source, or
disjoint above it) the in-place forward loop agrees with the
temporary-buffer semantics. -/
theorem memcpyLoop_eq_tmp {m : Mem} {s d n : Nat} (hside : d ≤ s ∨ s + n ≤ d)
    (hd : d + n ≤ m.length) :
    memcpyLoop s d n 0 m = memcpyTmp m s d n := by
  apply mem_eq_of_byteAt
  · rw [memcpyLoop_length, length_memcpyTmp]
  · intro j hj
    have hj2 : j < m.length := by rwa [memcpyLoop_length] at hj
    rw [byteAt_memcpyTmp m s d n hj2]
    by_cases hcase : d ≤ j ∧ j < d + n
    · have hdec : j = d + 0 + (j - d) := by omega
      rw [if_pos hcase, hdec,
        byteAt_memcpyLoop_in s d n hside n 0 m (by omega) hd (j - d) (by omega)]
      congr 1
      omega
    · rw [if_neg hcase]
      exact byteAt_memcpyLoop_out s d n 0 m j (by omega)

theorem utf8DecodeAux_ascii :
    ∀ (bs : List Nat) (fuel : Nat), bs.length ≤ fuel → (∀ b ∈ bs, b < 0x80) →
      utf8DecodeAux fuel bs = some bs := by
  intro bs
  induction bs with
  | nil => intro fuel _ _; cases fuel <;> rfl
  | cons b rest ih =>
    intro fuel hfuel hascii
    match fuel with
    | 0 => simp at hfuel
    | fuel + 1 =>
      have hb : b < 0x80 := hascii b (List.mem_cons_self b rest)
      simp only [utf8DecodeAux, if_pos hb]
      rw [ih fuel (by simpa using hfuel) (fun c hc => hascii c (List.mem_cons_of_mem b hc))]
      rfl

theorem utf8Decode_ascii (bs : List Nat) (h : ∀ b ∈ bs, b < 0x80) :
    utf8Decode bs = some bs :=
  utf8DecodeAux_ascii bs bs.length le_rfl h

theorem takeWhile_nonzero_append (s rest : List Nat) (h : ∀ c ∈ s, c ≠ 0) :
    (s ++ rest).takeWhile (fun b => b != 0) = s ++ rest.takeWhile (fun b => b != 0) := by
  induction s with
  | nil => simp
  | cons c s ih =>
    have hc : (c != 0) = true := by
      simpa using h c (List.mem_cons_self c s)
    simp only [List.cons_append, List.takeWhile_cons, hc, if_true]
    rw [ih (fun x hx => h x (List.mem_cons_of_mem c hx))]

theorem takeWhile_replicate_zero (k : Nat) :
    (List.replicate k (0 : Nat)).takeWhile (fun b => b != 0) = [] := by
  cases k with
  | zero => rfl
  | succ k => simp [List.replicate_succ, List.takeWhile_cons]

theorem byteAt_append_left {s r : List Nat} {i : Nat} (h : i < s.length) :
    byteAt (s ++ r) i = byteAt s i := by
  unfold byteAt
  rw [List.getElem?_append, if_pos h]

theorem byteAt_append_right {s r : List Nat} {i : Nat} (h : s.length ≤ i) :
    byteAt (s ++ r) i = byteAt r (i - s.length) := by
  unfold byteAt
  rw [List.getElem?_append, if_neg (by omega)]

theorem byteAt_replicate (k b i : Nat) :
    byteAt (List.replicate k b) i = if i < k then b else 0 := by
  unfold byteAt
  rw [List.getElem?_replicate]
  split <;> simp_all

theorem string_to_bytes_ascii (s : List Nat) (h : ∀ c ∈ s, c < 0x80) :
    string_to_bytes s = s := by
  unfold string_to_bytes
  induction s with
  | nil => rfl
  | cons c cs ih =>
    have hc : c % 256 = c := Nat.mod_eq_of_lt (by
      have := h c (List.mem_cons_self c cs)
      omega)
    simp only [List.map_cons, hc, List.cons.injEq, true_and]
    exact ih (fun x hx => h x (List.mem_cons_of_mem c hx))

/-- Claim C1 (code-bug evaluation at the failing input).  The claim says
that for Await the interpreter step itself does not advance the PC, the
scheduler performing the single increment, so that after the interrupt is
handled the pc is p+1.  On the code, executing Await from pc 0 already
leaves pc 1 (the skip-list of the bottom match of execute_instruction holds
only Jump and JumpIfTrue), and the scheduler handler then adds its own
increment, leaving pc 2 and skipping the instruction after the Await. -/
theorem claim_C1 (F : FloatOps) :
    execute_instruction F [] { instructions := [Instr.await 5 64, Instr.noOp], pc := 0 } =
      StepOut.done (Except.ok (Interrupt.await 5 64)) []
        { instructions := [Instr.await 5 64, Instr.noOp], pc := 1 } ∧
    scheduler_pc_bump { instructions := [Instr.await 5 64, Instr.noOp], pc := 1 } =
      { instructions := [Instr.await 5 64, Instr.noOp], pc := 2 } :=
  ⟨rfl, rfl⟩

/-- Claim C2 (code-bug evaluation at the failing input).  The claim says
completing a Waiting future writes the value bytes into each dependant's
memory before that dependant is set Runnable and before it is pushed on the
ready queue.  On the code the order per dependant is: set Runnable, enqueue,
then write: in the trace below the setRunnable and enqueue events of
coroutine 2 precede its memWrite event. -/
theorem claim_C2 :
    complete_future
      { coroutines := [(2,
          { id := 2, priority := 0, state := CoroutineState.suspended,
            depends_on := [(1, 0)], dependant := none, memory := [0, 0],
            program := { instructions := [], pc := 0 } })],
        futures := [(1, { id := 1, state := FutureState.waiting, dependants := [2], value := none })],
        ready_queue := [], new_spawned_coro_id := 2, new_spawned_future_id := 1 }
      1 (Except.ok [9]) =
      SchedOut.ok
        { coroutines := [(2,
            { id := 2, priority := 0, state := CoroutineState.runnable,
              depends_on := [], dependant := none, memory := [9, 0],
              program := { instructions := [], pc := 0 } })],
          futures := [(1,
            { id := 1, state := FutureState.complete, dependants := [], value := some [9] })],
          ready_queue := [2], new_spawned_coro_id := 2, new_spawned_future_id := 1 }
        [SchedEv.setValue 1 [9], SchedEv.setComplete 1, SchedEv.setRunnable 2,
         SchedEv.enqueue 2, SchedEv.memWrite 2 0 [9], SchedEv.removeDep 2 1,
         SchedEv.clearDependants 1] :=
  rfl

/-- Claim C3 (code-bug evaluation at the failing input).  The claim says
spawn_coro creates the result future in state Waiting with an EMPTY
dependants set.  On the code, spawn_fut receives the new coroutine's id as
dep and inserts it, so the fresh future's dependants set is the singleton
holding the spawned coroutine itself.  The remaining parts of the claim
evaluate as stated: the future is Waiting, it is recorded as the coroutine's
dependant, the coroutine is enqueued, and the returned id (6) is the future
id, not the coroutine id (1). -/
theorem claim_C3 :
    (spawn_coro
        { coroutines := [], futures := [], ready_queue := [],
          new_spawned_coro_id := 0, new_spawned_future_id := 5 }
        { instructions := [], pc := 0 } 0 [7]) =
      (6,
        { coroutines := [(1,
            { id := 1, priority := 0, state := CoroutineState.runnable,
              depends_on := [], dependant := some 6, memory := [7],
              program := { instructions := [], pc := 0 } })],
          futures := [(6,
            { id := 6, state := FutureState.waiting, dependants := [1], value := none })],
          ready_queue := [1], new_spawned_coro_id := 1, new_spawned_future_id := 6 }) :=
  rfl

/-- Claim C6 (code-bug evaluation).  The claim says the typed write fails
with an OutOfBounds fault, not a crash, exactly when addr + size exceeds the
capacity, leaving memory unchanged.  On the code Memory::write returns unit
and performs unchecked vector stores, so an out-of-range write is a Rust
index panic (modelled none) rather than a recoverable fault; the boundary
itself is as the claim states: the write panics iff addr + 8 exceeds the
capacity, shown here for the i64 codec the claim's sources cite. -/
theorem claim_C6 :
    memory_write_i64 (List.replicate 4 0) 0 5 = none ∧
    ∀ (m : Mem) (a : Nat) (v : Int), (memory_write_i64 m a v = none ↔ m.length < a + 8) := by
  constructor
  · decide
  · intro m a v
    have hlen : (encodeI64 v).length = 8 := length_natToLEBytes 8 _
    constructor
    · intro h
      by_contra hlt
      push_neg at hlt
      obtain ⟨m2, hm2⟩ := storeBytes_some_of_fits (encodeI64 v) m a (by omega)
      rw [memory_write_i64, hm2] at h
      exact Option.noConfusion h
    · intro h
      rw [memory_write_i64]
      apply storeBytes_none_of_overflow
      · intro hnil
        rw [hnil] at hlen
        exact Nat.noConfusion hlen
      · omega

/-- Claim C9 (code-bug evaluation).  The claim (and the doc comment of
ConcordeStream::open in io.rs) says close renames name.tmp over name only if
a write occurred.  On the code, close never consults has_written: a stream
opened under a non-stdio name and never written still gets the rename, which
replaces the original with the (empty) temporary. -/
theorem claim_C9 :
    stream_close (stream_open ("f")) = CloseEffect.renameOver ("f.tmp") ("f") ∧
    (stream_open ("f")).has_written = false ∧
    stream_close { name := ("f"), has_written := true } =
      CloseEffect.renameOver ("f.tmp") ("f") := by
  refine ⟨by decide, rfl, by decide⟩

/-- Claim C4, amended.  With both ranges within capacity memcpy succeeds,
and when the destination starts at or below the source, or the ranges are
disjoint, the result is exactly the as-if-through-a-temporary-buffer copy:
every byte at dst+i equals the pre-state byte at src+i, and every byte
outside the destination range (in particular the source of a non-overlapping
copy) is unchanged.  The claim's remaining case, overlap with the
destination strictly above the source, fails on the code: see the
counterexample. -/
theorem claim_C4 (m : Mem) (s d n : Nat) (hs : s + n ≤ m.length)
    (hd : d + n ≤ m.length) (hside : d ≤ s ∨ s + n ≤ d) :
    memory_memcpy m s d n = Except.ok (memcpyTmp m s d n) ∧
    (∀ i, i < n → byteAt (memcpyTmp m s d n) (d + i) = byteAt m (s + i)) ∧
    (∀ j, j < m.length → j < d ∨ d + n ≤ j →
      byteAt (memcpyTmp m s d n) j = byteAt m j) := by
  refine ⟨?_, ?_, ?_⟩
  · have hmax : max s d + n ≤ m.length := by
      rw [Nat.max_def]
      split <;> omega
    rw [memory_memcpy, if_pos hmax, memcpyLoop_eq_tmp hside hd]
  · intro i hi
    rw [byteAt_memcpyTmp m s d n (by omega), if_pos ⟨by omega, by omega⟩]
    congr 1
    omega
  · intro j hj hout
    rw [byteAt_memcpyTmp m s d n hj, if_neg (by omega)]

/-- Witness for claim C4 at a concrete disjoint copy. -/
theorem claim_C4_witness :
    memory_memcpy [5, 6, 7, 8] 0 2 2 = Except.ok (memcpyTmp [5, 6, 7, 8] 0 2 2) ∧
    (∀ i, i < 2 → byteAt (memcpyTmp [5, 6, 7, 8] 0 2 2) (2 + i) = byteAt [5, 6, 7, 8] (0 + i)) ∧
    (∀ j, j < List.length [5, 6, 7, 8] → j < 2 ∨ 2 + 2 ≤ j →
      byteAt (memcpyTmp [5, 6, 7, 8] 0 2 2) j = byteAt [5, 6, 7, 8] j) :=
  claim_C4 [5, 6, 7, 8] 0 2 2 (by decide) (by decide) (Or.inr (by decide))

/-- Counterexample to claim C4 as stated: with memory [1,2,0], copying two
bytes from 0 to 1 keeps both ranges within capacity, yet the byte landing at
dst+1 = 2 is 1 and not the pre-state source byte at src+1, which is 2; the
forward in-place loop re-reads the byte it just wrote, unlike a copy through
a temporary buffer, which would produce [1,1,2]. -/
theorem claim_C4_counterexample :
    memory_memcpy [1, 2, 0] 0 1 2 = Except.ok [1, 1, 1] ∧
    memcpyTmp [1, 2, 0] 0 1 2 = [1, 1, 2] ∧
    byteAt [1, 2, 0] (0 + 1) = 2 ∧ byteAt [1, 1, 1] (1 + 1) = 1 :=
  ⟨rfl, by decide, by decide, by decide⟩

/-- Claim C10 (confirmed).  get_next_runnable never yields an id that is
absent from the coroutine table or whose coroutine is not Runnable (queue
entries for those are popped and dropped silently: the function has no error
outcome), and it yields none exactly when no queued entry refers to a
Runnable coroutine. -/
theorem claim_C10 (coros : List (Nat × CoroutineR)) (q : List Nat) :
    (∀ i, (get_next_runnable coros q).1 = some i →
      ∃ cr, coros.lookup i = some cr ∧ cr.state = CoroutineState.runnable) ∧
    ((get_next_runnable coros q).1 = none ↔
      ∀ i ∈ q, ∀ cr, coros.lookup i = some cr → cr.state ≠ CoroutineState.runnable) := by
  induction q with
  | nil =>
    constructor
    · intro i h
      exact absurd h (by simp [get_next_runnable])
    · simp [get_next_runnable]
  | cons hd rest ih =>
    cases hl : coros.lookup hd with
    | some cr =>
      by_cases hs : cr.state = CoroutineState.runnable
      · constructor
        · intro i h
          simp only [get_next_runnable, hl, if_pos hs] at h
          exact ⟨cr, by rw [← Option.some_inj.mp h]; exact hl, hs⟩
        · constructor
          · intro h
            simp [get_next_runnable, hl, hs] at h
          · intro hall
            exact absurd hs (hall hd (List.mem_cons_self hd rest) cr hl)
      · have heq : get_next_runnable coros (hd :: rest) = get_next_runnable coros rest := by
          simp [get_next_runnable, hl, hs]
        rw [heq]
        constructor
        · exact ih.1
        · rw [ih.2]
          constructor
          · intro hall i hi cr2 hl2
            rcases List.mem_cons.mp hi with hi | hi
            · subst hi
              rw [hl2] at hl
              rw [Option.some_inj.mp hl]
              exact hs
            · exact hall i hi cr2 hl2
          · intro hall i hi cr2 hl2
            exact hall i (List.mem_cons_of_mem hd hi) cr2 hl2
    | none =>
      have heq : get_next_runnable coros (hd :: rest) = get_next_runnable coros rest := by
        simp [get_next_runnable, hl]
      rw [heq]
      constructor
      · exact ih.1
      · rw [ih.2]
        constructor
        · intro hall i hi cr2 hl2
          rcases List.mem_cons.mp hi with hi | hi
          · subst hi
            rw [hl2] at hl
            exact Option.noConfusion hl
          · exact hall i hi cr2 hl2
        · intro hall i hi cr2 hl2
          exact hall i (List.mem_cons_of_mem hd hi) cr2 hl2

/-- Witness for claim C10: on a queue whose first entry refers to a
Suspended coroutine and whose second to a Runnable one, the id returned is
the Runnable coroutine's. -/
theorem claim_C10_witness :
    ∃ cr, List.lookup 2
        [(1, ({ id := 1, priority := 0, state := CoroutineState.suspended, depends_on := [],
                dependant := none, memory := [],
                program := { instructions := [], pc := 0 } } : CoroutineR)),
         (2, ({ id := 2, priority := 0, state := CoroutineState.runnable, depends_on := [],
                dependant := none, memory := [],
                program := { instructions := [], pc := 0 } } : CoroutineR))] = some cr ∧
      cr.state = CoroutineState.runnable :=
  (claim_C10
    [(1, ({ id := 1, priority := 0, state := CoroutineState.suspended, depends_on := [],
            dependant := none, memory := [],
            program := { instructions := [], pc := 0 } } : CoroutineR)),
     (2, ({ id := 2, priority := 0, state := CoroutineState.runnable, depends_on := [],
            dependant := none, memory := [],
            program := { instructions := [], pc := 0 } } : CoroutineR))]
    [1, 2]).1 2 (by decide)

/-- Claim C8, amended.  The bool codec decodes a byte to true iff the byte
equals 1 exactly, not for every non-zero byte; consequently jump_if_true
takes the jump iff the condition byte is exactly 1 and falls through both on
0 and on every other non-zero byte. -/
theorem claim_C8 (F : FloatOps) (m : Mem) (instrs : List Instr) (pc t c : Nat)
    (hfetch : instrs[pc]? = some (Instr.jumpIfTrue t c)) (hc : c + 1 ≤ m.length) :
    memory_read_bool m c = some (byteAt m c == 1) ∧
    execute_instruction F m { instructions := instrs, pc := pc } =
      StepOut.done (Except.ok Interrupt.ok) m
        (if byteAt m c = 1 then { instructions := instrs, pc := t }
         else { instructions := instrs, pc := pc + 1 }) := by
  have hslice : sliceBytes m c 1 = some [byteAt m c] := by
    have hpt : ∀ i, i < List.length [byteAt m c] → byteAt m (c + i) = byteAt [byteAt m c] i := by
      intro i hi
      have hi0 : i = 0 := by simpa using hi
      subst hi0
      rw [byteAt_cons_zero, Nat.add_zero]
    simpa using sliceBytes_eq_of m c [byteAt m c] (by simpa using hc) hpt
  have hread : memory_read_bool m c = some (byteAt m c == 1) := by
    rw [memory_read_bool, hslice]
    rfl
  refine ⟨hread, ?_⟩
  simp only [execute_instruction, Program.get_instruction, hfetch, hread]
  by_cases hbyte : byteAt m c = 1
  · simp [hbyte, Program.jump]
  · have hne : (byteAt m c == 1) = false := by
      simpa using hbyte
    simp [hne, hbyte, Program.increment]

/-- Witness for claim C8 at condition byte 1 (jump taken). -/
theorem claim_C8_witness :
    memory_read_bool [1] 0 = some (byteAt [1] 0 == 1) ∧
    execute_instruction
        { sinB := fun x => x, cosB := fun x => x, tanB := fun x => x,
          asinB := fun x => x, acosB := fun x => x, atanB := fun x => x }
        [1] { instructions := [Instr.jumpIfTrue 5 0], pc := 0 } =
      StepOut.done (Except.ok Interrupt.ok) [1]
        (if byteAt [1] 0 = 1 then { instructions := [Instr.jumpIfTrue 5 0], pc := 5 }
         else { instructions := [Instr.jumpIfTrue 5 0], pc := 0 + 1 }) :=
  claim_C8
    { sinB := fun x => x, cosB := fun x => x, tanB := fun x => x,
      asinB := fun x => x, acosB := fun x => x, atanB := fun x => x }
    [1] [Instr.jumpIfTrue 5 0] 0 5 0 (by decide) (by decide)

/-- Counterexample to claim C8 as stated: the byte 2 is non-zero, yet it
decodes to false and a jump_if_true conditioned on it falls through to pc 1
instead of jumping to the target 5. -/
theorem claim_C8_counterexample :
    memory_read_bool [2] 0 = some false ∧ (2 : Nat) ≠ 0 ∧
    execute_instruction
        { sinB := fun x => x, cosB := fun x => x, tanB := fun x => x,
          asinB := fun x => x, acosB := fun x => x, atanB := fun x => x }
        [2] { instructions := [Instr.jumpIfTrue 5 0], pc := 0 } =
      StepOut.done (Except.ok Interrupt.ok) [2]
        { instructions := [Instr.jumpIfTrue 5 0], pc := 1 } :=
  ⟨by decide, by decide, rfl⟩

theorem length_encodeI64 (v : Int) : (encodeI64 v).length = 8 :=
  length_natToLEBytes 8 _

theorem length_encodeInt (w : Nat) (v : Int) : (encodeInt w v).length = w :=
  length_natToLEBytes w _

theorem natAbs_tmod (a b : Int) : (a.tmod b).natAbs = a.natAbs % b.natAbs := by
  rcases a with m | m <;> rcases b with n | n <;>
    simp [Int.tmod, Int.natAbs_neg] <;> norm_cast

theorem tmod_nonpos_of_nonpos (a b : Int) (ha : a ≤ 0) : a.tmod b ≤ 0 := by
  rcases Int.le_iff_lt_or_eq.mp ha with hneg | h0
  · rcases a with m | m
    · exact absurd hneg (by simp)
    · rcases b with n | n <;> simp only [Int.tmod] <;>
        exact neg_nonpos.mpr (Int.ofNat_nonneg _)
  · rw [h0, Int.zero_tmod]

theorem tdiv_i64_range {av bv : Int} (hlo : -((2 : Int) ^ 63) ≤ av)
    (hhi : av < (2 : Int) ^ 63) (hbv : bv ≠ 0)
    (hexc : ¬(av = -((2 : Int) ^ 63) ∧ bv = -1)) :
    -((2 : Int) ^ 63) ≤ av.tdiv bv ∧ av.tdiv bv < (2 : Int) ^ 63 := by
  have hpow : ((2 : Int) ^ 63) = 9223372036854775808 := by norm_num
  rw [hpow] at hlo hhi hexc ⊢
  have hq : (av.tdiv bv).natAbs = av.natAbs / bv.natAbs := Int.natAbs_tdiv av bv
  by_cases hb1 : bv = 1
  · subst hb1
    rw [Int.tdiv_one]
    exact ⟨hlo, hhi⟩
  · by_cases hmin : av = -9223372036854775808
    · have hbm1 : bv ≠ -1 := fun hc => hexc ⟨hmin, hc⟩
      have hbabs : 2 ≤ bv.natAbs := by omega
      have hav : av.natAbs = 9223372036854775808 := by omega
      have hdivle : av.natAbs / bv.natAbs ≤ av.natAbs / 2 :=
        Nat.div_le_div_left hbabs (by omega)
      omega
    · have hle : av.natAbs ≤ 9223372036854775807 := by omega
      have hds : av.natAbs / bv.natAbs ≤ av.natAbs := Nat.div_le_self _ _
      omega

theorem tmod_i64_range (av bv : Int) (hlo : -((2 : Int) ^ 63) ≤ av)
    (hhi : av < (2 : Int) ^ 63) :
    -((2 : Int) ^ 63) ≤ av.tmod bv ∧ av.tmod bv < (2 : Int) ^ 63 := by
  have hpow : ((2 : Int) ^ 63) = 9223372036854775808 := by norm_num
  rw [hpow] at hlo hhi ⊢
  have hq := natAbs_tmod av bv
  have hmodle : av.natAbs % bv.natAbs ≤ av.natAbs := Nat.mod_le _ _
  by_cases hmin : av = -9223372036854775808
  · have hneg : av.tmod bv ≤ 0 := tmod_nonpos_of_nonpos av bv (by omega)
    omega
  · omega

/-- Claim C7, amended.  With both operand reads succeeding and the
destination in bounds: a divisor decoding to 0 makes both div and mod fail
with the division-by-zero error, performing no write (the error outcome
carries the unchanged input memory); with a non-zero divisor — except at
dividend -2^63 with divisor -1, where the Rust operators overflow i64 and
panic instead of writing (see the counterexample) — div writes the
truncated quotient Int.tdiv and mod the remainder Int.tmod (which carries
the dividend's sign) at the destination, where it reads back exactly. -/
theorem claim_C7 (m : Mem) (a b dest : Nat) (av bv : Int)
    (ha : memory_read_i64 m a = some av) (hb : memory_read_i64 m b = some bv)
    (havlo : -((2 : Int) ^ 63) ≤ av) (havhi : av < (2 : Int) ^ 63)
    (hdest : dest + 8 ≤ m.length) :
    (bv = 0 →
      divide_symbols m a b dest = MemRes.err ("Division by zero error") m ∧
      modulo_symbols m a b dest = MemRes.err ("Division by zero error") m) ∧
    (bv ≠ 0 → ¬(av = -((2 : Int) ^ 63) ∧ bv = -1) →
      ∃ m2, memory_write_i64 m dest (Int.tdiv av bv) = some m2 ∧
        divide_symbols m a b dest = MemRes.ok m2 Interrupt.ok ∧
        memory_read_i64 m2 dest = some (Int.tdiv av bv)) ∧
    (bv ≠ 0 → ¬(av = -((2 : Int) ^ 63) ∧ bv = -1) →
      ∃ m3, memory_write_i64 m dest (Int.tmod av bv) = some m3 ∧
        modulo_symbols m a b dest = MemRes.ok m3 Interrupt.ok ∧
        memory_read_i64 m3 dest = some (Int.tmod av bv)) := by
  refine ⟨?_, ?_, ?_⟩
  · intro h0
    constructor
    · simp only [divide_symbols, ha, hb, if_pos h0]
    · simp only [modulo_symbols, ha, hb, if_pos h0]
  · intro hb0 hexc
    obtain ⟨m2, hm2⟩ := storeBytes_some_of_fits (encodeI64 (Int.tdiv av bv)) m dest
      (by rw [length_encodeI64]; omega)
    refine ⟨m2, hm2, ?_, ?_⟩
    · simp only [divide_symbols, ha, hb, if_neg hb0, if_neg hexc]
      rw [show memory_write_i64 m dest (Int.tdiv av bv) =
        storeBytes m dest (encodeI64 (Int.tdiv av bv)) from rfl, hm2]
    · have hslice := sliceBytes_storeBytes hm2 (by rw [length_encodeI64]; omega)
      rw [length_encodeI64] at hslice
      rw [memory_read_i64, hslice]
      have hrange := tdiv_i64_range havlo havhi hb0 hexc
      have hdec : decodeI64 (encodeI64 (Int.tdiv av bv)) = Int.tdiv av bv := by
        apply decodeIntBytes_encodeInt (by norm_num)
        · have : ((2 : Int) ^ (8 * 8 - 1)) = (2 : Int) ^ 63 := by norm_num
          rw [this]
          exact hrange.1
        · have : ((2 : Int) ^ (8 * 8 - 1)) = (2 : Int) ^ 63 := by norm_num
          rw [this]
          exact hrange.2
      simp [hdec]
  · intro hb0 hexc
    obtain ⟨m3, hm3⟩ := storeBytes_some_of_fits (encodeI64 (Int.tmod av bv)) m dest
      (by rw [length_encodeI64]; omega)
    refine ⟨m3, hm3, ?_, ?_⟩
    · simp only [modulo_symbols, ha, hb, if_neg hb0, if_neg hexc]
      rw [show memory_write_i64 m dest (Int.tmod av bv) =
        storeBytes m dest (encodeI64 (Int.tmod av bv)) from rfl, hm3]
    · have hslice := sliceBytes_storeBytes hm3 (by rw [length_encodeI64]; omega)
      rw [length_encodeI64] at hslice
      rw [memory_read_i64, hslice]
      have hrange := tmod_i64_range av bv havlo havhi
      have hdec : decodeI64 (encodeI64 (Int.tmod av bv)) = Int.tmod av bv := by
        apply decodeIntBytes_encodeInt (by norm_num)
        · have : ((2 : Int) ^ (8 * 8 - 1)) = (2 : Int) ^ 63 := by norm_num
          rw [this]
          exact hrange.1
        · have : ((2 : Int) ^ (8 * 8 - 1)) = (2 : Int) ^ 63 := by norm_num
          rw [this]
          exact hrange.2
      simp [hdec]

/-- Witness for claim C7 at the arithmetic of -7 by 2 (quotient -3,
remainder -1 with the dividend's sign). -/
theorem claim_C7_witness :
    ((2 : Int) = 0 →
      divide_symbols (encodeI64 (-7) ++ encodeI64 2 ++ List.replicate 8 0) 0 8 16 =
        MemRes.err ("Division by zero error")
          (encodeI64 (-7) ++ encodeI64 2 ++ List.replicate 8 0) ∧
      modulo_symbols (encodeI64 (-7) ++ encodeI64 2 ++ List.replicate 8 0) 0 8 16 =
        MemRes.err ("Division by zero error")
          (encodeI64 (-7) ++ encodeI64 2 ++ List.replicate 8 0)) ∧
    ((2 : Int) ≠ 0 → ¬((-7 : Int) = -((2 : Int) ^ 63) ∧ (2 : Int) = -1) →
      ∃ m2, memory_write_i64 (encodeI64 (-7) ++ encodeI64 2 ++ List.replicate 8 0) 16
          (Int.tdiv (-7) 2) = some m2 ∧
        divide_symbols (encodeI64 (-7) ++ encodeI64 2 ++ List.replicate 8 0) 0 8 16 =
          MemRes.ok m2 Interrupt.ok ∧
        memory_read_i64 m2 16 = some (Int.tdiv (-7) 2)) ∧
    ((2 : Int) ≠ 0 → ¬((-7 : Int) = -((2 : Int) ^ 63) ∧ (2 : Int) = -1) →
      ∃ m3, memory_write_i64 (encodeI64 (-7) ++ encodeI64 2 ++ List.replicate 8 0) 16
          (Int.tmod (-7) 2) = some m3 ∧
        modulo_symbols (encodeI64 (-7) ++ encodeI64 2 ++ List.replicate 8 0) 0 8 16 =
          MemRes.ok m3 Interrupt.ok ∧
        memory_read_i64 m3 16 = some (Int.tmod (-7) 2)) :=
  claim_C7 (encodeI64 (-7) ++ encodeI64 2 ++ List.replicate 8 0) 0 8 16 (-7) 2
    (by decide) (by decide) (by decide) (by decide) (by decide)

/-- Counterexample to claim C7 as stated: at dividend -2^63 and divisor -1
(a non-zero divisor) neither instruction writes a quotient or remainder at
the destination; the Rust operators overflow i64 and the process panics. -/
theorem claim_C7_counterexample :
    divide_symbols (encodeI64 (-((2 : Int) ^ 63)) ++ encodeI64 (-1) ++ List.replicate 8 0)
        0 8 16 = MemRes.panicked ("attempt to divide with overflow") ∧
    modulo_symbols (encodeI64 (-((2 : Int) ^ 63)) ++ encodeI64 (-1) ++ List.replicate 8 0)
        0 8 16 = MemRes.panicked ("attempt to calculate the remainder with overflow") ∧
    memory_read_i64 (encodeI64 (-((2 : Int) ^ 63)) ++ encodeI64 (-1) ++ List.replicate 8 0)
        0 = some (-((2 : Int) ^ 63)) ∧
    memory_read_i64 (encodeI64 (-((2 : Int) ^ 63)) ++ encodeI64 (-1) ++ List.replicate 8 0)
        8 = some (-1) := by
  refine ⟨by decide, by decide, by decide, by decide⟩

/-- Claim C5, amended.  Under the round-trip hypotheses (the value of a
supported width and in range, the written range within capacity; for
strings: non-NUL ASCII scalars, the encoding fitting the 24-byte slot the
typed read slices, and the rest of the slot NUL) the typed read immediately
after the typed write returns exactly the value written.  For non-ASCII
strings the claim fails on the code: the String codec truncates every char
to its low byte (see the counterexample). -/
theorem claim_C5 (m : Mem) (a : Nat) (v : Value) (h : roundTripHyp m a v) :
    ∃ m2, value_write m a v = some m2 ∧ value_read m2 a v.ty = some v := by
  cases v with
  | uint w vv =>
    obtain ⟨hw, hrange, hfit⟩ := h
    obtain ⟨m2, hm2⟩ := storeBytes_some_of_fits (natToLEBytes w vv) m a
      (by rw [length_natToLEBytes]; omega)
    refine ⟨m2, hm2, ?_⟩
    have hslice := sliceBytes_storeBytes hm2 (by rw [length_natToLEBytes]; omega)
    rw [length_natToLEBytes] at hslice
    simp only [Value.ty, value_read, hslice, Option.map_some']
    rw [leBytesToNat_natToLEBytes hrange]
  | sint w vv =>
    obtain ⟨hw, hlo, hhi, hfit⟩ := h
    have hw0 : 0 < w := by rcases hw with h | h | h | h | h <;> omega
    obtain ⟨m2, hm2⟩ := storeBytes_some_of_fits (encodeInt w vv) m a
      (by rw [length_encodeInt]; omega)
    refine ⟨m2, hm2, ?_⟩
    have hslice := sliceBytes_storeBytes hm2 (by rw [length_encodeInt]; omega)
    rw [length_encodeInt] at hslice
    simp only [Value.ty, value_read, hslice, Option.map_some']
    rw [decodeIntBytes_encodeInt hw0 hlo hhi]
  | float w bits =>
    obtain ⟨hw, hrange, hfit⟩ := h
    obtain ⟨m2, hm2⟩ := storeBytes_some_of_fits (natToLEBytes w bits) m a
      (by rw [length_natToLEBytes]; omega)
    refine ⟨m2, hm2, ?_⟩
    have hslice := sliceBytes_storeBytes hm2 (by rw [length_natToLEBytes]; omega)
    rw [length_natToLEBytes] at hslice
    simp only [Value.ty, value_read, hslice, Option.map_some']
    rw [leBytesToNat_natToLEBytes hrange]
  | boolean b =>
    have hfit : a + 1 ≤ m.length := h
    have ha : a < m.length := by omega
    refine ⟨m.set a (if b then 1 else 0), ?_, ?_⟩
    · simp only [value_write, memory_write_bool, bool_write_bytes_to, storeByte, if_pos ha]
    · have hslice : sliceBytes (m.set a (if b then 1 else 0)) a 1 =
          some [if b then 1 else 0] := by
        have hpt : ∀ i, i < List.length [if b then (1 : Nat) else 0] →
            byteAt (m.set a (if b then 1 else 0)) (a + i) =
              byteAt [if b then (1 : Nat) else 0] i := by
          intro i hi
          have hi0 : i = 0 := by simpa using hi
          subst hi0
          rw [Nat.add_zero, byteAt_set_self ha, byteAt_cons_zero]
        simpa using sliceBytes_eq_of (m.set a (if b then 1 else 0)) a
          [if b then 1 else 0] (by simpa using hfit) hpt
      simp only [Value.ty, value_read, hslice, Option.bind_some]
      cases b <;> rfl
  | str s =>
    obtain ⟨hchars, hslen, hfit, hpad⟩ := h
    have hascii : ∀ c ∈ s, c < 0x80 := fun c hc => (hchars c hc).2
    have hbytes : string_to_bytes s = s := string_to_bytes_ascii s hascii
    obtain ⟨m2, hm2⟩ := storeBytes_some_of_fits s m a (by omega)
    obtain ⟨hlen2, hout, hin⟩ := storeBytes_spec s m m2 a hm2
    refine ⟨m2, ?_, ?_⟩
    · simp only [value_write, memory_write_string, string_write_bytes_to, hbytes]
      exact hm2
    · have hbs24len : (s ++ List.replicate (24 - s.length) 0).length = 24 := by
        simp
        omega
      have hslice : sliceBytes m2 a 24 = some (s ++ List.replicate (24 - s.length) 0) := by
        have hpt : ∀ i, i < (s ++ List.replicate (24 - s.length) 0).length →
            byteAt m2 (a + i) = byteAt (s ++ List.replicate (24 - s.length) 0) i := by
          intro i hi
          rw [hbs24len] at hi
          by_cases his : i < s.length
          · rw [byteAt_append_left his]
            exact hin i his
          · push_neg at his
            rw [byteAt_append_right his, byteAt_replicate, if_pos (by omega)]
            rw [hout (a + i) (Or.inr (by omega))]
            exact hpad i hi his
        have := sliceBytes_eq_of m2 a (s ++ List.replicate (24 - s.length) 0)
          (by rw [hbs24len]; omega) hpt
        rwa [hbs24len] at this
      have htake : (s ++ List.replicate (24 - s.length) 0).takeWhile (fun b => b != 0) = s := by
        rw [takeWhile_nonzero_append s _ (fun c hc => by have := (hchars c hc).1; omega),
          takeWhile_replicate_zero, List.append_nil]
      simp only [Value.ty, value_read, memory_read_string, hslice, Option.some_bind,
        string_from_bytes, htake, utf8Decode_ascii s hascii, Option.map_some']

/-- Witness for claim C5 at the two-char ASCII string with scalars 72 and
105 written into 32 bytes of zeroed memory. -/
theorem claim_C5_witness :
    ∃ m2, value_write (List.replicate 32 0) 0 (Value.str [72, 105]) = some m2 ∧
      value_read m2 0 (Value.str [72, 105]).ty = some (Value.str [72, 105]) :=
  claim_C5 (List.replicate 32 0) 0 (Value.str [72, 105])
    (by refine ⟨by decide, by decide, by decide, ?_⟩
        intro j hj hsj
        rw [byteAt_replicate, if_pos (by omega)])

/-- Counterexample to claim C5 as stated: the one-char string with scalar
256, whose UTF-8 encoding is 2 bytes and fits both the capacity and the
24-byte readable slot, does not round-trip: the codec writes the scalar's
low byte 0, and the read returns the empty string. -/
theorem claim_C5_counterexample :
    value_write (List.replicate 32 0) 0 (Value.str [256]) = some (List.replicate 32 0) ∧
    value_read (List.replicate 32 0) 0 (Value.str [256]).ty = some (Value.str []) ∧
    Value.str [] ≠ Value.str [256] ∧
    string_get_size [256] = 2 ∧ 0 + string_get_size [256] ≤ (List.replicate 32 0).length := by
  refine ⟨by decide, by decide, by decide, by decide, by decide⟩

end ConcordeVM

